import Mathlib

/-!
Verification of the sharded-counter subsystem (`counter.go`, package `pushq`).

The Go code keeps two datastore kinds: `CounterConfig` (one record per counter
name, field `Shards`) and `CounterShard` (records keyed by the string
`name ++ "-shard" ++ i`, fields `Name` and `Count`), plus a memcache entry per
counter holding a cached aggregate.  We shallowly embed the datastore as
association lists keyed by the datastore string key (kinds are separate key
spaces, hence two lists), memcache as an association list from key to value,
and externalize the environment's nondeterminism: the random shard index drawn
by `rand.Intn`, cache availability, and transaction failure are explicit
parameters.
-/

namespace Pushq

/-- Go struct `counterConfig { Shards int }`. -/
structure counterConfig where
  Shards : Int
  deriving Repr, DecidableEq

/-- Go struct `counterShard { Name string ; Count int64 }`. -/
structure counterShard where
  Name : String
  Count : Int
  deriving Repr, DecidableEq

/-- Go constant `defaultShards = 20`. -/
def defaultShards : Int := 20

/-- Go constant `shardKind = "CounterShard"`. -/
def shardKind : String := "CounterShard"

/-- Go `func memcacheKey(name string) string { return shardKind + ":" + name }`. -/
def memcacheKey (name : String) : String := shardKind ++ ":" ++ name

/-- The datastore string key of a shard record:
Go `fmt.Sprintf("%s-shard%d", name, i)` in `Increment`. -/
def shardName (name : String) (i : Nat) : String := name ++ "-shard" ++ toString i

/-- Keyed lookup in an association list (datastore `Get` by key). -/
def assocGet {α : Type} (l : List (String × α)) (k : String) : Option α :=
  (l.find? (fun p => p.1 == k)).map (fun p => p.2)

/-- Keyed store in an association list (datastore `Put` by key): the record at
`k`, if any, is replaced. -/
def assocPut {α : Type} (l : List (String × α)) (k : String) (v : α) :
    List (String × α) :=
  (k, v) :: l.eraseP (fun p => p.1 == k)

/-- The persistent store: the `CounterConfig` kind keyed by counter name and
the `CounterShard` kind keyed by the `shardName` string. -/
structure Store where
  configs : List (String × counterConfig)
  shards : List (String × counterShard)
  deriving Repr, DecidableEq

/-- A store with no records at all. -/
def emptyStore : Store := ⟨[], []⟩

/-- Memcache: key to cached (JSON int64) value.  Entry absence models both
"never set" and "expired". -/
abbrev Cache := List (String × Int)

/-- `memcache.JSON.Get`. -/
def cacheGet (c : Cache) (k : String) : Option Int := assocGet c k

/-- `memcache.JSON.Set` (the 60s expiration is outside the model: expiry
re-appears as entry absence). -/
def cacheSet (c : Cache) (k : String) (v : Int) : Cache := assocPut c k v

/-- `memcache.IncrementExisting`: adds `d` to the entry at `k` when present,
does nothing (no creation) when absent. -/
def cacheIncrementExisting (c : Cache) (k : String) (d : Int) : Cache :=
  c.map (fun p => if p.1 == k then (p.1, p.2 + d) else p)

/-- The datastore scan of Go `Count`: query kind `CounterShard` filtered by
`Name = name`, summing the `Count` fields. -/
def countScan (st : Store) (name : String) : Int :=
  ((st.shards.filter (fun p => p.2.Name == name)).map (fun p => p.2.Count)).sum

/-- Go `Count(ctx, name)`.  `getOk = false` models a memcache `Get` adapter
failure (any non-nil error, also covering an expired entry); `scanErr` models
a datastore iteration error inside the scan loop; `setOk = false` models a
failing `memcache.JSON.Set` (whose return value the Go code ignores).
Returns the result (`ok total`, or the propagated store error) and the cache
after the call. -/
def Count (st : Store) (c : Cache) (name : String) (getOk : Bool)
    (scanErr : Option String) (setOk : Bool) : Except String Int × Cache :=
  let mkey := memcacheKey name
  match (if getOk then cacheGet c mkey else none) with
  | some total => (Except.ok total, c)
  | none =>
    match scanErr with
    | some e => (Except.error e, c)
    | none =>
      let total := countScan st name
      (Except.ok total, if setOk then cacheSet c mkey total else c)

/-- The first transaction of Go `Increment`: get the `counterConfig` for
`name`; when `ErrNoSuchEntity`, put a fresh one with `defaultShards`.
Returns the store after the transaction and the config read/created. -/
def configBootstrap (st : Store) (name : String) : Store × counterConfig :=
  match assocGet st.configs name with
  | some cfg => (st, cfg)
  | none =>
    let cfg : counterConfig := ⟨defaultShards⟩
    ({ st with configs := assocPut st.configs name cfg }, cfg)

/-- The second transaction of Go `Increment` with the drawn shard index `i`:
get the record at key `shardName name i` (the zero value
`{Name := "", Count := 0}` when absent, which is not an error), then put back
`{Name := name, Count := prior.Count + amt}`. -/
def shardUpdate (st : Store) (name : String) (amt : Int) (i : Nat) : Store :=
  let key := shardName name i
  let prior : counterShard := (assocGet st.shards key).getD ⟨"", 0⟩
  let s : counterShard := { Name := name, Count := prior.Count + amt }
  { st with shards := assocPut st.shards key s }

/-- Outcome of Go `Increment`: whether a non-nil error was returned, plus the
store and cache after the call. -/
structure IncOutcome where
  err : Bool
  store : Store
  cache : Cache
  deriving Repr, DecidableEq

/-- Go `Increment(ctx, name, amt)` with the drawn shard index `i` made
explicit (`i = rand.Intn(cfg.Shards)` in the source).  `cfgTxnOk = false`
models the config transaction failing (rolled back, error returned);
`shardTxnOk = false` models the shard transaction failing after the config
transaction committed.  On full success the cache entry for `name`, when one
exists, is bumped by the literal `1` via `memcache.IncrementExisting`. -/
def Increment (st : Store) (c : Cache) (name : String) (amt : Int) (i : Nat)
    (cfgTxnOk shardTxnOk : Bool) : IncOutcome :=
  if cfgTxnOk = false then ⟨true, st, c⟩
  else
    let st1 := (configBootstrap st name).1
    if shardTxnOk = false then ⟨true, st1, c⟩
    else ⟨false, shardUpdate st1 name amt i, cacheIncrementExisting c (memcacheKey name) 1⟩

/-- The store effect of a successful `Increment`. -/
def incStore (st : Store) (name : String) (amt : Int) (i : Nat) : Store :=
  shardUpdate (configBootstrap st name).1 name amt i

/-- Go `IncreaseCounterShards(ctx, name, n)`: inside one transaction, read the
config (default when absent, marking it modified), raise `Shards` to `n` when
smaller (marking it modified), and put it back only when modified. -/
def IncreaseCounterShards (st : Store) (name : String) (n : Int) : Store :=
  match assocGet st.configs name with
  | none =>
    let cfg : counterConfig := ⟨defaultShards⟩
    let cfg := if cfg.Shards < n then ⟨n⟩ else cfg
    { st with configs := assocPut st.configs name cfg }
  | some cfg =>
    if cfg.Shards < n then { st with configs := assocPut st.configs name ⟨n⟩ }
    else st

/-- Go `GetAllCounterNames`: keys-only query over the `CounterConfig` kind,
returning each key's string ID. -/
def GetAllCounterNames (st : Store) : List String :=
  st.configs.map (fun p => p.1)

/-- The `Shards` field of the config for `name`, when a config record exists. -/
def getShards (st : Store) (name : String) : Option Int :=
  (assocGet st.configs name).map (fun cfg => cfg.Shards)

/-- Whether a `CounterConfig` record exists for `name`. -/
def hasConfig (st : Store) (name : String) : Bool :=
  (assocGet st.configs name).isSome

/-- The store-mutating operations of the subsystem: a successful `Increment`
(with its drawn shard index) and `IncreaseCounterShards`.  `Count` and
`GetAllCounterNames` never write to the store. -/
inductive Op where
  | inc (name : String) (amt : Int) (i : Nat)
  | incShards (name : String) (n : Int)
  deriving Repr, DecidableEq

/-- The store after one operation. -/
def applyOp (st : Store) : Op → Store
  | .inc name amt i => incStore st name amt i
  | .incShards name n => IncreaseCounterShards st name n

/-- The store after a sequence of operations. -/
def applyTrace (st : Store) (trace : List Op) : Store :=
  trace.foldl applyOp st

/-- Whether an operation is an `Increment` call for `name`. -/
def Op.isIncFor : Op → String → Bool
  | .inc n _ _, name => n == name
  | .incShards _ _, _ => false

/-- Whether an operation addresses the counter `name` at all. -/
def Op.isFor : Op → String → Bool
  | .inc n _ _, name => n == name
  | .incShards n _, name => n == name

/-- A sequence of successful `Increment(name, amt, i)` calls (store effect). -/
def applyIncs (st : Store) (name : String) (calls : List (Int × Nat)) : Store :=
  calls.foldl (fun s c => incStore s name c.1 c.2) st

/-! ### Association-list lemmas -/

theorem assocGet_put_self {α : Type} (l : List (String × α)) (k : String) (v : α) :
    assocGet (assocPut l k v) k = some v := by
  simp [assocGet, assocPut, List.find?_cons]

theorem find?_eraseP_ne {α : Type} (l : List (String × α)) (k k' : String)
    (h : k' ≠ k) :
    (l.eraseP (fun p => p.1 == k)).find? (fun p => p.1 == k') =
      l.find? (fun p => p.1 == k') := by
  induction l with
  | nil => rfl
  | cons p t ih =>
    by_cases hp : p.1 = k
    · rw [List.eraseP_cons_of_pos (by simp [hp])]
      have : (p.1 == k') = false := by
        simp only [beq_eq_false_iff_ne, ne_eq, hp]
        exact fun e => h e.symm
      simp [List.find?_cons, this]
    · rw [List.eraseP_cons_of_neg (by simp [hp])]
      by_cases hq : p.1 = k'
      · simp [List.find?_cons, hq]
      · simp only [List.find?_cons, show (p.1 == k') = false by simp [hq]]
        exact ih

theorem assocGet_put_ne {α : Type} (l : List (String × α)) (k k' : String) (v : α)
    (h : k' ≠ k) : assocGet (assocPut l k v) k' = assocGet l k' := by
  have hkk : (k == k') = false := by
    simp only [beq_eq_false_iff_ne, ne_eq]
    exact fun e => h e.symm
  simp only [assocGet, assocPut, List.find?_cons, hkk]
  rw [find?_eraseP_ne l k k' h]

theorem assocGet_eq_none {α : Type} {l : List (String × α)} {k : String} :
    assocGet l k = none ↔ ∀ p ∈ l, p.1 ≠ k := by
  simp [assocGet, List.find?_eq_none]

theorem assocGet_isSome {α : Type} {l : List (String × α)} {k : String} :
    (assocGet l k).isSome ↔ ∃ p ∈ l, p.1 = k := by
  simp [assocGet, List.find?_isSome]

theorem assocGet_eq_some {α : Type} {l : List (String × α)} {k : String} {v : α}
    (h : assocGet l k = some v) : (k, v) ∈ l := by
  simp only [assocGet, Option.map_eq_some'] at h
  obtain ⟨p, hfind, hv⟩ := h
  have hmem := List.mem_of_find?_eq_some hfind
  have hk : p.1 = k := by simpa using List.find?_some hfind
  have : p = (k, v) := by
    cases p; simp_all
  rwa [this] at hmem

/-! ### Scan-sum lemmas: how the `Count` scan changes under a shard put -/

/-- The value of the `Count` scan as a function of the raw shard list. -/
def scanSum (l : List (String × counterShard)) (name : String) : Int :=
  ((l.filter (fun p => p.2.Name == name)).map (fun p => p.2.Count)).sum

theorem countScan_eq_scanSum (st : Store) (name : String) :
    countScan st name = scanSum st.shards name := rfl

theorem scanSum_cons (p : String × counterShard) (t : List (String × counterShard))
    (name : String) :
    scanSum (p :: t) name =
      (if p.2.Name == name then p.2.Count else 0) + scanSum t name := by
  simp only [scanSum, List.filter_cons]
  split <;> simp

theorem scanSum_put_absent (l : List (String × counterShard)) (k name : String) (v : Int)
    (hfind : l.find? (fun p => p.1 == k) = none) :
    scanSum (assocPut l k ⟨name, v⟩) name = scanSum l name + v := by
  have herase : l.eraseP (fun p => p.1 == k) = l :=
    List.eraseP_of_forall_not (List.find?_eq_none.mp hfind)
  rw [assocPut, herase, scanSum_cons]
  simp only [beq_self_eq_true, if_true]
  omega

theorem scanSum_put_found (l : List (String × counterShard)) (k name : String)
    (amt : Int) (q : String × counterShard)
    (hfind : l.find? (fun p => p.1 == k) = some q) (hq : q.2.Name = name) :
    scanSum (assocPut l k ⟨name, q.2.Count + amt⟩) name = scanSum l name + amt := by
  induction l with
  | nil => simp at hfind
  | cons p t ih =>
    by_cases hp : p.1 = k
    · have hfind' : some p = some q := by
        simpa [List.find?_cons, hp] using hfind
      obtain rfl : p = q := by injection hfind'
      rw [assocPut, List.eraseP_cons_of_pos (by simp [hp]), scanSum_cons, scanSum_cons]
      simp only [beq_self_eq_true, if_true, hq]
      omega
    · have hfind' : t.find? (fun p => p.1 == k) = some q := by
        simpa [List.find?_cons, hp] using hfind
      have iht := ih hfind'
      rw [assocPut, List.eraseP_cons_of_neg (by simp [hp]), scanSum_cons]
      rw [assocPut] at iht
      rw [scanSum_cons] at iht ⊢
      rw [scanSum_cons]
      omega

/-- Shard records for counters other than `name` have a `Name` field different
from `name`; records at `name`'s own shard keys carry `Name = name`.  This is
the store shape every run of the subsystem maintains for `name`'s keys. -/
def cleanFor (st : Store) (name : String) : Prop :=
  ∀ p ∈ st.shards, (∃ j : Nat, p.1 = shardName name j) → p.2.Name = name

theorem configBootstrap_shards (st : Store) (name : String) :
    ((configBootstrap st name).1).shards = st.shards := by
  cases h : assocGet st.configs name <;> simp [configBootstrap, h]

theorem incStore_shards (st : Store) (name : String) (amt : Int) (i : Nat) :
    (incStore st name amt i).shards =
      assocPut st.shards (shardName name i)
        ⟨name, ((assocGet st.shards (shardName name i)).getD ⟨"", 0⟩).Count + amt⟩ := by
  simp [incStore, shardUpdate, configBootstrap_shards]

theorem incStore_configs (st : Store) (name : String) (amt : Int) (i : Nat) :
    (incStore st name amt i).configs = ((configBootstrap st name).1).configs := rfl

theorem countScan_incStore (st : Store) (name : String) (amt : Int) (i : Nat)
    (hclean : ∀ p ∈ st.shards, p.1 = shardName name i → p.2.Name = name) :
    countScan (incStore st name amt i) name = countScan st name + amt := by
  rw [countScan_eq_scanSum, countScan_eq_scanSum, incStore_shards]
  cases hf : st.shards.find? (fun p => p.1 == shardName name i) with
  | none =>
    have hg : assocGet st.shards (shardName name i) = none := by
      simp [assocGet, hf]
    rw [hg]
    simp only [Option.getD_none]
    have := scanSum_put_absent st.shards (shardName name i) name
      ((counterShard.Count ⟨"", 0⟩) + amt) hf
    rw [this]
    show scanSum st.shards name + ((0 : Int) + amt) = scanSum st.shards name + amt
    omega
  | some q =>
    have hmem := List.mem_of_find?_eq_some hf
    have hk : q.1 = shardName name i := by simpa using List.find?_some hf
    have hname : q.2.Name = name := hclean q hmem hk
    have hg : assocGet st.shards (shardName name i) = some q.2 := by
      simp [assocGet, hf]
    rw [hg]
    simp only [Option.getD_some]
    exact scanSum_put_found st.shards (shardName name i) name amt q hf hname

theorem cleanFor_incStore (st : Store) (name : String) (amt : Int) (i : Nat)
    (hclean : cleanFor st name) : cleanFor (incStore st name amt i) name := by
  intro p hp hj
  rw [incStore_shards] at hp
  rcases List.mem_cons.mp hp with rfl | hp'
  · rfl
  · exact hclean p (List.mem_of_mem_eraseP hp') hj

theorem countScan_applyIncs (name : String) (calls : List (Int × Nat)) :
    ∀ st : Store, cleanFor st name →
      countScan (applyIncs st name calls) name =
          countScan st name + (calls.map Prod.fst).sum ∧
        cleanFor (applyIncs st name calls) name := by
  induction calls with
  | nil =>
    intro st h
    refine ⟨by simp [applyIncs], h⟩
  | cons c rest ih =>
    intro st h
    have hstep := countScan_incStore st name c.1 c.2 (fun p hp hk => h p hp ⟨c.2, hk⟩)
    have hclean' := cleanFor_incStore st name c.1 c.2 h
    have htail := ih (incStore st name c.1 c.2) hclean'
    have hrw : applyIncs st name (c :: rest) = applyIncs (incStore st name c.1 c.2) name rest := rfl
    refine ⟨?_, by rw [hrw]; exact htail.2⟩
    rw [hrw, htail.1, hstep, List.map_cons, List.sum_cons]
    omega

theorem countScan_eq_zero (st : Store) (name : String)
    (hshards : ∀ p ∈ st.shards, p.2.Name ≠ name) : countScan st name = 0 := by
  rw [countScan_eq_scanSum]
  have hfil : st.shards.filter (fun p => p.2.Name == name) = [] := by
    rw [List.filter_eq_nil_iff]
    intro p hp
    simpa using hshards p hp
  simp [scanSum, hfil]

/-! ### The claims -/

/-- C1: starting from a store with no shard records for `name`, a sequence of
successful `Increment(name, by_i)` calls followed by a `Count(name)` whose
cache lookup misses (entry absent, expired, or cache adapter failing) returns
exactly `sum(by_i)`. -/
theorem count_after_increments (st : Store) (c : Cache) (name : String)
    (calls : List (Int × Nat)) (getOk setOk : Bool)
    (hfresh : ∀ p ∈ st.shards, p.2.Name ≠ name ∧ ∀ j : Nat, p.1 ≠ shardName name j)
    (hmiss : getOk = false ∨ cacheGet c (memcacheKey name) = none) :
    (Count (applyIncs st name calls) c name getOk none setOk).1 =
      Except.ok ((calls.map Prod.fst).sum) := by
  have hclean : cleanFor st name := by
    rintro p hp ⟨j, hj⟩
    exact absurd hj ((hfresh p hp).2 j)
  have h0 : countScan st name = 0 :=
    countScan_eq_zero st name (fun p hp => (hfresh p hp).1)
  have hmain := (countScan_applyIncs name calls st hclean).1
  rw [h0] at hmain
  have hnone : (if getOk then cacheGet c (memcacheKey name) else none) = none := by
    rcases hmiss with rfl | hm
    · rfl
    · cases getOk <;> simp [hm]
  simp only [Count, hnone]
  simp [hmain]

/-- Witness for C1, the spec's concrete scenario: `Increment("hits", 3)` then
`Increment("hits", 4)`, then `Count("hits")` with the cache bypassed, gives 7. -/
theorem count_after_increments_witness :
    (Count (applyIncs emptyStore "hits" [((3 : Int), 0), ((4 : Int), 1)]) [] "hits"
        true none true).1 = Except.ok 7 := by
  have h := count_after_increments emptyStore [] "hits" [((3 : Int), 0), ((4 : Int), 1)]
    true true (by intro p hp; simp [emptyStore] at hp) (Or.inr rfl)
  simpa using h

/-- C5: `Count` never fails because of the cache — on a cache-lookup miss or a
cache adapter failure it falls back to the shard scan and returns its total,
unchanged whether or not the subsequent cache write succeeds; and whenever the
store scan itself does not fail, `Count` returns `ok` for every combination of
cache outcomes. -/
theorem count_cache_resilient (st : Store) (c : Cache) (name : String)
    (getOk setOk : Bool)
    (hmiss : getOk = false ∨ cacheGet c (memcacheKey name) = none) :
    (Count st c name getOk none setOk).1 = Except.ok (countScan st name) ∧
      (∀ g s : Bool, ∃ t : Int, (Count st c name g none s).1 = Except.ok t) := by
  constructor
  · have hnone : (if getOk then cacheGet c (memcacheKey name) else none) = none := by
      rcases hmiss with rfl | hm
      · rfl
      · cases getOk <;> simp [hm]
    simp [Count, hnone]
  · intro g s
    cases hl : (if g then cacheGet c (memcacheKey name) else none) with
    | none => exact ⟨countScan st name, by simp [Count, hl]⟩
    | some v => exact ⟨v, by simp [Count, hl]⟩

/-- Witness for C5 at a concrete state: with a populated store and an absent
cache entry, the miss path returns the scan total and `ok`. -/
theorem count_cache_resilient_witness :
    (Count (applyIncs emptyStore "hits" [((5 : Int), 0)]) [] "hits" true none false).1 =
        Except.ok 5 ∧
      ∃ t : Int, (Count (applyIncs emptyStore "hits" [((5 : Int), 0)]) [] "hits"
        true none true).1 = Except.ok t := by
  have h := count_cache_resilient (applyIncs emptyStore "hits" [((5 : Int), 0)]) [] "hits"
    true false (Or.inr rfl)
  exact ⟨by rw [h.1]; rfl, h.2 true true⟩

/-- C8: `Count` on a name never incremented — no shard records carrying that
name and no cache entry — returns total 0 with a nil error. -/
theorem count_zero_when_uninitialized (st : Store) (c : Cache) (name : String)
    (getOk setOk : Bool)
    (hshards : ∀ p ∈ st.shards, p.2.Name ≠ name)
    (hcache : cacheGet c (memcacheKey name) = none) :
    (Count st c name getOk none setOk).1 = Except.ok 0 := by
  have hnone : (if getOk then cacheGet c (memcacheKey name) else none) = none := by
    cases getOk <;> simp [hcache]
  have h0 := countScan_eq_zero st name hshards
  simp [Count, hnone, h0]

/-- Witness for C8: counting a never-touched name on the empty store. -/
theorem count_zero_when_uninitialized_witness :
    (Count emptyStore [] "fresh" true none true).1 = Except.ok 0 :=
  count_zero_when_uninitialized emptyStore [] "fresh" true true
    (by intro p hp; simp [emptyStore] at hp) rfl

/-! ### Cache-adjustment lemmas (`memcache.IncrementExisting`) -/

theorem cacheIncrementExisting_of_none (c : Cache) (k : String) (d : Int)
    (h : assocGet c k = none) : cacheIncrementExisting c k d = c := by
  induction c with
  | nil => rfl
  | cons p t ih =>
    have hall := assocGet_eq_none.mp h
    have hp : (p.1 == k) = false := by
      simpa using hall p (List.mem_cons_self p t)
    have ht : assocGet t k = none :=
      assocGet_eq_none.mpr (fun q hq => hall q (List.mem_cons_of_mem p hq))
    simp only [cacheIncrementExisting, List.map_cons, hp, if_neg Bool.false_ne_true]
    rw [show t.map (fun p => if p.1 == k then (p.1, p.2 + d) else p) =
      cacheIncrementExisting t k d from rfl, ih ht]

theorem cacheGet_incrementExisting_some (c : Cache) (k : String) (d v : Int)
    (h : assocGet c k = some v) :
    assocGet (cacheIncrementExisting c k d) k = some (v + d) := by
  induction c with
  | nil => simp [assocGet] at h
  | cons p t ih =>
    by_cases hp : p.1 = k
    · have hv : p.2 = v := by
        simpa [assocGet, List.find?_cons, hp] using h
      simp [cacheIncrementExisting, assocGet, List.find?_cons, hp, hv]
    · have ht : assocGet t k = some v := by
        simpa [assocGet, List.find?_cons, hp] using h
      simpa [cacheIncrementExisting, assocGet, List.find?_cons, hp] using ih ht

theorem assocGet_cons {α : Type} (p : String × α) (t : List (String × α)) (k : String) :
    assocGet (p :: t) k = if p.1 == k then some p.2 else assocGet t k := by
  simp only [assocGet, List.find?_cons]
  split <;> simp_all

theorem cacheIncrementExisting_cons (p : String × Int) (t : Cache) (k : String) (d : Int) :
    cacheIncrementExisting (p :: t) k d =
      (if p.1 == k then (p.1, p.2 + d) else p) :: cacheIncrementExisting t k d := rfl

theorem cacheGet_incrementExisting_ne (c : Cache) (k k' : String) (d : Int)
    (h : k' ≠ k) :
    assocGet (cacheIncrementExisting c k d) k' = assocGet c k' := by
  induction c with
  | nil => rfl
  | cons p t ih =>
    rw [cacheIncrementExisting_cons]
    by_cases hp : p.1 = k
    · have hhead : (if p.1 == k then (p.1, p.2 + d) else p) = (p.1, p.2 + d) := by
        simp [hp]
      have hpk : (p.1 == k') = false := by
        simp only [beq_eq_false_iff_ne, ne_eq, hp]
        exact fun e => h e.symm
      rw [hhead, assocGet_cons, assocGet_cons]
      simpa [hpk] using ih
    · have hhead : (if p.1 == k then (p.1, p.2 + d) else p) = p := by
        simp [hp]
      rw [hhead, assocGet_cons, assocGet_cons]
      by_cases hq : p.1 = k'
      · simp [hq]
      · simpa [hq] using ih

/-- C6: a successful `Increment(name, by)` — with its shard index drawn from
`[0, shardCount)` for the `shardCount` read in the bootstrap step — stores at
the selected shard key its prior count (0 when the record was absent) plus
`by`, and leaves the record at every other shard key, of every counter,
unchanged. -/
theorem increment_single_shard_frame (st : Store) (c : Cache) (name : String)
    (amt : Int) (i : Nat)
    (_hi : (i : Int) < ((configBootstrap st name).2).Shards) :
    (assocGet ((Increment st c name amt i true true).store).shards (shardName name i) =
        some ⟨name, ((assocGet st.shards (shardName name i)).getD ⟨"", 0⟩).Count + amt⟩) ∧
      (∀ k : String, k ≠ shardName name i →
        assocGet ((Increment st c name amt i true true).store).shards k =
          assocGet st.shards k) := by
  have hstore : (Increment st c name amt i true true).store = incStore st name amt i := rfl
  constructor
  · rw [hstore, incStore_shards]
    exact assocGet_put_self _ _ _
  · intro k hk
    rw [hstore, incStore_shards]
    exact assocGet_put_ne _ _ _ _ hk

/-- Witness for C6, the spec's scenario shape: after `Increment("hits", 3)`
landed in shard 0, an `Increment("hits", 4)` drawing shard 1 (< 20, the
bootstrap shard count) writes `0 + 4` to shard 1 and leaves shard 0's record
untouched. -/
theorem increment_single_shard_frame_witness :
    (assocGet ((Increment (incStore emptyStore "hits" 3 0) [] "hits" 4 1 true
          true).store).shards (shardName "hits" 1) = some ⟨"hits", 0 + 4⟩) ∧
      (assocGet ((Increment (incStore emptyStore "hits" 3 0) [] "hits" 4 1 true
          true).store).shards (shardName "hits" 0) =
        assocGet (incStore emptyStore "hits" 3 0).shards (shardName "hits" 0)) := by
  have h := increment_single_shard_frame (incStore emptyStore "hits" 3 0) [] "hits" 4 1
    (by decide)
  exact ⟨by simpa using h.1, h.2 (shardName "hits" 0) (by decide)⟩

/-- C7: the cache-adjustment step of a successful `Increment(name, by)` leaves
the cache entirely unchanged when no entry for `name` exists (it never creates
one); when an entry exists it is bumped by the literal unit 1; the cache
effect is the same for every increment magnitude `by`; and entries under other
keys are untouched. -/
theorem increment_cache_adjust (st : Store) (c : Cache) (name : String)
    (amt : Int) (i : Nat) :
    (cacheGet c (memcacheKey name) = none →
        (Increment st c name amt i true true).cache = c) ∧
      (∀ v : Int, cacheGet c (memcacheKey name) = some v →
        cacheGet ((Increment st c name amt i true true).cache) (memcacheKey name) =
          some (v + 1)) ∧
      (∀ amt2 : Int, (Increment st c name amt2 i true true).cache =
        (Increment st c name amt i true true).cache) ∧
      (∀ k : String, k ≠ memcacheKey name →
        cacheGet ((Increment st c name amt i true true).cache) k = cacheGet c k) := by
  have hc : (Increment st c name amt i true true).cache =
      cacheIncrementExisting c (memcacheKey name) 1 := rfl
  refine ⟨fun h => ?_, fun v h => ?_, fun amt2 => rfl, fun k hk => ?_⟩
  · rw [hc]
    exact cacheIncrementExisting_of_none c (memcacheKey name) 1 h
  · rw [hc]
    exact cacheGet_incrementExisting_some c (memcacheKey name) 1 v h
  · rw [hc]
    exact cacheGet_incrementExisting_ne c (memcacheKey name) k 1 hk

/-- Witness for C7: with a cached total of 10 for `"hits"`, an increment by 5
bumps the cache to 11 (not 15); with no cache entry, the cache stays empty. -/
theorem increment_cache_adjust_witness :
    cacheGet ((Increment emptyStore (cacheSet [] (memcacheKey "hits") 10) "hits" 5 0
        true true).cache) (memcacheKey "hits") = some 11 ∧
      (Increment emptyStore [] "hits" 5 0 true true).cache = [] := by
  refine ⟨?_, ?_⟩
  · have h := increment_cache_adjust emptyStore (cacheSet [] (memcacheKey "hits") 10)
      "hits" 5 0
    simpa using h.2.1 10 (by decide)
  · have h := increment_cache_adjust emptyStore [] "hits" 5 0
    exact h.1 rfl

theorem configBootstrap_configs_of_none (st : Store) (name : String)
    (h : assocGet st.configs name = none) :
    ((configBootstrap st name).1).configs = assocPut st.configs name ⟨defaultShards⟩ := by
  simp [configBootstrap, h]

theorem configBootstrap_of_some (st : Store) (name : String) (cfg : counterConfig)
    (h : assocGet st.configs name = some cfg) :
    configBootstrap st name = (st, cfg) := by
  simp [configBootstrap, h]

/-- C9: `Increment` is not atomic across its two transactions — when the
config bootstrap commits for a previously-unseen name and the shard
transaction then fails, the call returns an error, no shard record is written,
the cache is untouched, and yet the freshly created config record remains and
the name shows up in `GetAllCounterNames`. -/
theorem increment_config_survives_shard_failure (st : Store) (c : Cache)
    (name : String) (amt : Int) (i : Nat)
    (hnc : assocGet st.configs name = none) :
    (Increment st c name amt i true false).err = true ∧
      (Increment st c name amt i true false).store.shards = st.shards ∧
      (Increment st c name amt i true false).cache = c ∧
      hasConfig (Increment st c name amt i true false).store name = true ∧
      name ∈ GetAllCounterNames (Increment st c name amt i true false).store := by
  have hst : (Increment st c name amt i true false).store = (configBootstrap st name).1 := rfl
  have hcfgs := configBootstrap_configs_of_none st name hnc
  refine ⟨rfl, ?_, rfl, ?_, ?_⟩
  · rw [hst, configBootstrap_shards]
  · rw [hst]
    simp [hasConfig, hcfgs, assocGet_put_self]
  · rw [hst]
    unfold GetAllCounterNames
    rw [hcfgs]
    exact List.mem_cons_self _ _

/-- Witness for C9: a failed first-ever increment of `"hits"` on the empty
store errors out yet leaves a config record behind, visible to
`GetAllCounterNames`, with no shard record written. -/
theorem increment_config_survives_shard_failure_witness :
    (Increment emptyStore [] "hits" 3 0 true false).err = true ∧
      (Increment emptyStore [] "hits" 3 0 true false).store.shards = emptyStore.shards ∧
      (Increment emptyStore [] "hits" 3 0 true false).cache = [] ∧
      hasConfig (Increment emptyStore [] "hits" 3 0 true false).store "hits" = true ∧
      "hits" ∈ GetAllCounterNames (Increment emptyStore [] "hits" 3 0 true false).store :=
  increment_config_survives_shard_failure emptyStore [] "hits" 3 0 rfl

/-! ### Config-record lemmas and claims -/

theorem getShards_eq_some {st : Store} {name : String} {v : Int}
    (h : getShards st name = some v) :
    ∃ cfg : counterConfig, assocGet st.configs name = some cfg ∧ cfg.Shards = v := by
  simp only [getShards, Option.map_eq_some'] at h
  exact h

theorem incStore_getShards_of_none (st : Store) (name : String) (amt : Int) (i : Nat)
    (h : assocGet st.configs name = none) :
    getShards (incStore st name amt i) name = some defaultShards := by
  unfold getShards
  rw [incStore_configs, configBootstrap_configs_of_none st name h, assocGet_put_self]
  rfl

/-- C2: per counter, the stored shard count never decreases under any store
operation of the subsystem (an `Increment`, including its config bootstrap, or
an `IncreaseCounterShards` with any argument), and the config is created with
the fixed default 20 by a first `Increment`. -/
theorem shards_monotone (st : Store) (name : String) :
    (∀ (op : Op) (v : Int), getShards st name = some v →
        ∃ v', getShards (applyOp st op) name = some v' ∧ v ≤ v') ∧
      (getShards st name = none → ∀ (amt : Int) (i : Nat),
        getShards (incStore st name amt i) name = some defaultShards) := by
  constructor
  · intro op v h
    obtain ⟨cfg, hget, hv⟩ := getShards_eq_some h
    cases op with
    | inc n' amt i =>
      show ∃ v', getShards (incStore st n' amt i) name = some v' ∧ v ≤ v'
      cases hc : assocGet st.configs n' with
      | some cfg' =>
        refine ⟨v, ?_, le_refl v⟩
        unfold getShards
        rw [incStore_configs, configBootstrap_of_some st n' cfg' hc]
        exact h
      | none =>
        by_cases hn : name = n'
        · rw [hn] at hget
          rw [hget] at hc
          cases hc
        · refine ⟨v, ?_, le_refl v⟩
          unfold getShards
          rw [incStore_configs, configBootstrap_configs_of_none st n' hc,
            assocGet_put_ne _ _ _ _ hn, hget]
          simp [hv]
    | incShards n' n =>
      show ∃ v', getShards (IncreaseCounterShards st n' n) name = some v' ∧ v ≤ v'
      cases hc : assocGet st.configs n' with
      | none =>
        by_cases hn : name = n'
        · rw [hn] at hget
          rw [hget] at hc
          cases hc
        · refine ⟨v, ?_, le_refl v⟩
          unfold getShards IncreaseCounterShards
          rw [hc]
          simp only
          rw [assocGet_put_ne _ _ _ _ hn, hget]
          simp [hv]
      | some cfg' =>
        by_cases hlt : cfg'.Shards < n
        · by_cases hn : name = n'
          · subst hn
            have : cfg = cfg' := by rw [hget] at hc; injection hc
            subst this
            refine ⟨n, ?_, ?_⟩
            · unfold getShards IncreaseCounterShards
              rw [hc]
              simp only [if_pos hlt]
              rw [assocGet_put_self]
              rfl
            · rw [← hv]; exact le_of_lt hlt
          · refine ⟨v, ?_, le_refl v⟩
            unfold getShards IncreaseCounterShards
            rw [hc]
            simp only [if_pos hlt]
            rw [assocGet_put_ne _ _ _ _ hn, hget]
            simp [hv]
        · refine ⟨v, ?_, le_refl v⟩
          unfold IncreaseCounterShards
          rw [hc]
          simp only [if_neg hlt]
          exact h
  · intro h amt i
    exact incStore_getShards_of_none st name amt i (by
      unfold getShards at h
      exact Option.map_eq_none'.mp h)

/-- Witness for C2: raising then shrinking attempts never lower the count, and
the first increment of `"hits"` creates the default-20 config. -/
theorem shards_monotone_witness :
    (∃ v', getShards (applyOp (applyOp emptyStore (Op.inc "hits" 1 0))
          (Op.incShards "hits" 5)) "hits" = some v' ∧ (20 : Int) ≤ v') ∧
      getShards (incStore emptyStore "hits" 1 0) "hits" = some defaultShards := by
  constructor
  · exact (shards_monotone (applyOp emptyStore (Op.inc "hits" 1 0)) "hits").1
      (Op.incShards "hits" 5) 20 (by decide)
  · exact (shards_monotone emptyStore "hits").2 rfl 1 0

/-- C3: after `IncreaseCounterShards(name, n)` the config record exists with a
shard count at least `n`, and at least the default 20 when no config existed
before; when `n` is at most the current count the call writes nothing and the
whole store is unchanged. -/
theorem increaseShards_contract (st : Store) (name : String) (n : Int) :
    (∃ v : Int, getShards (IncreaseCounterShards st name n) name = some v ∧ n ≤ v ∧
        (getShards st name = none → defaultShards ≤ v)) ∧
      (∀ v : Int, getShards st name = some v → n ≤ v →
        IncreaseCounterShards st name n = st) := by
  constructor
  · cases hc : assocGet st.configs name with
    | none =>
      by_cases h20 : defaultShards < n
      · refine ⟨n, ?_, le_refl n, fun _ => le_of_lt h20⟩
        unfold getShards IncreaseCounterShards
        rw [hc]
        simp only [if_pos h20]
        rw [assocGet_put_self]
        rfl
      · refine ⟨defaultShards, ?_, le_of_not_lt h20, fun _ => le_refl _⟩
        unfold getShards IncreaseCounterShards
        rw [hc]
        simp only [if_neg h20]
        rw [assocGet_put_self]
        rfl
    | some cfg =>
      by_cases hlt : cfg.Shards < n
      · refine ⟨n, ?_, le_refl n, ?_⟩
        · unfold getShards IncreaseCounterShards
          rw [hc]
          simp only [if_pos hlt]
          rw [assocGet_put_self]
          rfl
        · intro habs
          unfold getShards at habs
          rw [hc] at habs
          cases habs
      · refine ⟨cfg.Shards, ?_, le_of_not_lt hlt, ?_⟩
        · unfold IncreaseCounterShards
          rw [hc]
          simp only [if_neg hlt]
          unfold getShards
          rw [hc]
          rfl
        · intro habs
          unfold getShards at habs
          rw [hc] at habs
          cases habs
  · intro v hv hn
    obtain ⟨cfg, hget, hshards⟩ := getShards_eq_some hv
    have hnot : ¬ cfg.Shards < n := by rw [hshards]; exact not_lt.mpr hn
    unfold IncreaseCounterShards
    rw [hget]
    simp only [if_neg hnot]

/-- Witness for C3, the spec's scenario: `IncreaseShards("hits", 50)` leaves at
least 50 shards, and a following `IncreaseShards("hits", 5)` is a no-op. -/
theorem increaseShards_contract_witness :
    (∃ v : Int, getShards (IncreaseCounterShards emptyStore "hits" 50) "hits" = some v ∧
        (50 : Int) ≤ v ∧ (getShards emptyStore "hits" = none → defaultShards ≤ v)) ∧
      IncreaseCounterShards (IncreaseCounterShards emptyStore "hits" 50) "hits" 5 =
        IncreaseCounterShards emptyStore "hits" 50 := by
  refine ⟨(increaseShards_contract emptyStore "hits" 50).1, ?_⟩
  exact (increaseShards_contract (IncreaseCounterShards emptyStore "hits" 50) "hits" 5).2
    50 (by decide) (by decide)

theorem mem_getAllCounterNames_iff (st : Store) (name : String) :
    name ∈ GetAllCounterNames st ↔ hasConfig st name = true := by
  unfold GetAllCounterNames hasConfig
  rw [List.mem_map, assocGet_isSome]

theorem hasConfig_applyOp (st : Store) (op : Op) (name : String) :
    hasConfig (applyOp st op) name = true ↔
      hasConfig st name = true ∨ op.isFor name = true := by
  cases op with
  | inc n' amt i =>
    show hasConfig (incStore st n' amt i) name = true ↔ _
    unfold hasConfig
    rw [show (incStore st n' amt i).configs = ((configBootstrap st n').1).configs from rfl]
    cases hc : assocGet st.configs n' with
    | some cfg =>
      rw [configBootstrap_of_some st n' cfg hc]
      by_cases hn : n' = name
      · subst hn
        simp [hc, Op.isFor]
      · simp [Op.isFor, show (n' == name) = false by simpa using hn]
    | none =>
      rw [configBootstrap_configs_of_none st n' hc]
      by_cases hn : name = n'
      · subst hn
        simp [assocGet_put_self, Op.isFor]
      · rw [assocGet_put_ne _ _ _ _ hn]
        simp [Op.isFor, show (n' == name) = false by simpa using fun e => hn e.symm]
  | incShards n' n =>
    show hasConfig (IncreaseCounterShards st n' n) name = true ↔ _
    unfold hasConfig IncreaseCounterShards
    cases hc : assocGet st.configs n' with
    | none =>
      simp only
      by_cases hn : name = n'
      · subst hn
        simp [assocGet_put_self, Op.isFor]
      · rw [assocGet_put_ne _ _ _ _ hn]
        simp [Op.isFor, show (n' == name) = false by simpa using fun e => hn e.symm]
    | some cfg =>
      by_cases hlt : cfg.Shards < n
      · simp only [if_pos hlt]
        by_cases hn : name = n'
        · subst hn
          simp [assocGet_put_self, hc, Op.isFor]
        · rw [assocGet_put_ne _ _ _ _ hn]
          simp [Op.isFor, show (n' == name) = false by simpa using fun e => hn e.symm]
      · simp only [if_neg hlt]
        by_cases hn : n' = name
        · subst hn
          simp [hc, Op.isFor]
        · simp [Op.isFor, show (n' == name) = false by simpa using hn]

theorem hasConfig_applyTrace (trace : List Op) :
    ∀ (st : Store) (name : String),
      hasConfig (applyTrace st trace) name = true ↔
        hasConfig st name = true ∨ ∃ op ∈ trace, op.isFor name = true := by
  induction trace with
  | nil =>
    intro st name
    simp [applyTrace]
  | cons op rest ih =>
    intro st name
    have hrw : applyTrace st (op :: rest) = applyTrace (applyOp st op) rest := rfl
    rw [hrw, ih (applyOp st op) name, hasConfig_applyOp]
    constructor
    · rintro ((h | h) | ⟨o, ho, h⟩)
      · exact Or.inl h
      · exact Or.inr ⟨op, List.mem_cons_self _ _, h⟩
      · exact Or.inr ⟨o, List.mem_cons_of_mem _ ho, h⟩
    · rintro (h | ⟨o, ho, h⟩)
      · exact Or.inl (Or.inl h)
      · rcases List.mem_cons.mp ho with rfl | ho'
        · exact Or.inl (Or.inr h)
        · exact Or.inr ⟨o, ho', h⟩

/-- C4 counterexample: the claim's "config record exists only if some
`Increment` call for that name has occurred" is false — a single
`IncreaseCounterShards("x", 5)` on the empty store creates the config record
(and `"x"` shows up in `GetAllCounterNames`) with no `Increment` in the
history. -/
theorem getAllCounterNames_without_increment_cex :
    "x" ∈ GetAllCounterNames (applyTrace emptyStore [Op.incShards "x" 5]) ∧
      ([Op.incShards "x" 5].all fun op => !(op.isIncFor "x")) = true := by
  constructor
  · rw [mem_getAllCounterNames_iff]
    decide
  · decide

/-- C4 amended: `GetAllCounterNames` returns exactly the names holding a
config record, and (from an empty store) a config record exists for a name iff
some `Increment` **or `IncreaseCounterShards`** call for that name has
occurred. -/
theorem getAllCounterNames_spec (trace : List Op) (name : String) :
    (∀ st : Store, name ∈ GetAllCounterNames st ↔ hasConfig st name = true) ∧
      (name ∈ GetAllCounterNames (applyTrace emptyStore trace) ↔
        ∃ op ∈ trace, op.isFor name = true) := by
  refine ⟨fun st => mem_getAllCounterNames_iff st name, ?_⟩
  rw [mem_getAllCounterNames_iff, hasConfig_applyTrace]
  have hempty : hasConfig emptyStore name = false := rfl
  simp [hempty]

/-- Witness for C4's amended claim at a concrete trace: after one increment of
`"hits"` and one shard raise of `"x"`, both names are listed and a fresh name
is not. -/
theorem getAllCounterNames_spec_witness :
    ("hits" ∈ GetAllCounterNames (applyTrace emptyStore
        [Op.inc "hits" 1 0, Op.incShards "x" 5]) ↔
      ∃ op ∈ [Op.inc "hits" 1 0, Op.incShards "x" 5], op.isFor "hits" = true) ∧
      ("zzz" ∈ GetAllCounterNames (applyTrace emptyStore
          [Op.inc "hits" 1 0, Op.incShards "x" 5]) ↔
        ∃ op ∈ [Op.inc "hits" 1 0, Op.incShards "x" 5], op.isFor "zzz" = true) :=
  ⟨(getAllCounterNames_spec [Op.inc "hits" 1 0, Op.incShards "x" 5] "hits").2,
    (getAllCounterNames_spec [Op.inc "hits" 1 0, Op.incShards "x" 5] "zzz").2⟩

/-! ### C10: reachable configs keep at least the default shard count -/

theorem configsGE_applyOp (st : Store) (op : Op)
    (h : ∀ p ∈ st.configs, defaultShards ≤ p.2.Shards) :
    ∀ p ∈ (applyOp st op).configs, defaultShards ≤ p.2.Shards := by
  cases op with
  | inc n' amt i =>
    show ∀ p ∈ (incStore st n' amt i).configs, _
    rw [show (incStore st n' amt i).configs = ((configBootstrap st n').1).configs from rfl]
    cases hc : assocGet st.configs n' with
    | some cfg =>
      rw [configBootstrap_of_some st n' cfg hc]
      exact h
    | none =>
      rw [configBootstrap_configs_of_none st n' hc]
      intro p hp
      rcases List.mem_cons.mp hp with rfl | hp'
      · exact le_refl _
      · exact h p (List.mem_of_mem_eraseP hp')
  | incShards n' n =>
    show ∀ p ∈ (IncreaseCounterShards st n' n).configs, _
    unfold IncreaseCounterShards
    cases hc : assocGet st.configs n' with
    | none =>
      simp only
      intro p hp
      rcases List.mem_cons.mp hp with rfl | hp'
      · by_cases h20 : defaultShards < n
        · simpa [if_pos h20] using le_of_lt h20
        · simp [if_neg h20]
      · exact h p (List.mem_of_mem_eraseP hp')
    | some cfg =>
      by_cases hlt : cfg.Shards < n
      · simp only [if_pos hlt]
        intro p hp
        rcases List.mem_cons.mp hp with rfl | hp'
        · have hcm : (n', cfg) ∈ st.configs := assocGet_eq_some hc
          exact le_of_lt (lt_of_le_of_lt (h (n', cfg) hcm) hlt)
        · exact h p (List.mem_of_mem_eraseP hp')
      · simp only [if_neg hlt]
        exact h

/-- C10: along any sequence of the subsystem's own operations from the empty
store, every existing config record keeps a shard count of at least the
default 20; in particular the `rand.Intn(cfg.Shards)` bound in `Increment`'s
shard-selection step is positive, so the draw over `[0, shardCount)` cannot
fault. -/
theorem reachable_shards_ge_default (trace : List Op) (name : String) (v : Int)
    (h : getShards (applyTrace emptyStore trace) name = some v) :
    defaultShards ≤ v ∧ 0 < v := by
  have hinv : ∀ p ∈ (applyTrace emptyStore trace).configs, defaultShards ≤ p.2.Shards := by
    have : ∀ (rest : List Op) (st : Store),
        (∀ p ∈ st.configs, defaultShards ≤ p.2.Shards) →
        ∀ p ∈ (applyTrace st rest).configs, defaultShards ≤ p.2.Shards := by
      intro rest
      induction rest with
      | nil => intro st hst; exact hst
      | cons op tl ih =>
        intro st hst
        exact ih (applyOp st op) (configsGE_applyOp st op hst)
    exact this trace emptyStore (by intro p hp; simp [emptyStore] at hp)
  obtain ⟨cfg, hget, hv⟩ := getShards_eq_some h
  have hmem := assocGet_eq_some hget
  have h20 : defaultShards ≤ cfg.Shards := hinv (name, cfg) hmem
  rw [hv] at h20
  refine ⟨h20, ?_⟩
  have : (20 : Int) ≤ v := h20
  omega

/-- Witness for C10: after a first increment, `"hits"` has exactly the default
20 shards, which is positive. -/
theorem reachable_shards_ge_default_witness :
    defaultShards ≤ (20 : Int) ∧ (0 : Int) < 20 :=
  reachable_shards_ge_default [Op.inc "hits" 1 0] "hits" 20 (by decide)

end Pushq
